import Mathlib

/-!
Verification development for the CapsWriter-Offline repository.

Text is modelled as `List Char` (Python `str`), machine integers as `Int`
(Python `int`), and dictionaries as association lists.  Each definition is a
shallow embedding of one Python function of the repository; the source file
and symbol are named in its doc comment.
-/

namespace CapsWriter

/-- Python `str`, modelled as a list of characters. -/
abbrev Str := List Char

/-! ## Association-list helpers (model of Python `dict`) -/

/-- Model of `d.get(k)` / `d[k]`: value of the first binding of `k`. -/
def lookupA {β : Type} (m : List (Str × β)) (k : Str) : Option β :=
  (m.find? (fun p => p.1 = k)).map Prod.snd

/-- Model of `del d[k]` / `d.pop(k, ...)`: remove every binding of `k`. -/
def eraseA {β : Type} (m : List (Str × β)) (k : Str) : List (Str × β) :=
  m.filter (fun p => ¬ (p.1 = k))

/-- Model of `d[k] = v`. -/
def setA {β : Type} (m : List (Str × β)) (k : Str) (v : β) : List (Str × β) :=
  (k, v) :: eraseA m k

/-- Model of `d.get(k, 0)` for an integer-valued dict (`defaultdict(int)`). -/
def lookupZ (m : List (Str × Int)) (k : Str) : Int :=
  (lookupA m k).getD 0

/-- Sum of all values of an integer-valued dict. -/
def sumVals (m : List (Str × Int)) : Int :=
  (m.map Prod.snd).sum

/-! ## Partial commit (src/util/client/output/result_processor.py) -/

/-- `PartialCommitState` (result_processor.py, lines 32-36): per-task partial
commit state.  `prev_text` models the `prev_partial` field. -/
structure PartialCommitState where
  prev_text : Str := []
  committed_text : Str := []
  deriving DecidableEq, Repr

/-- `ResultProcessor._lcp_len` (result_processor.py, lines 119-126): length of
the longest common prefix of two texts. -/
def lcp_len : Str → Str → Nat
  | [], _ => 0
  | _, [] => 0
  | a :: as, b :: bs => if a = b then lcp_len as bs + 1 else 0

/-- One recognition message as consumed by `_handle_partial_input`
(fields `task_id`, `text`, `is_final` of the decoded JSON message). -/
structure PartialMessage where
  task_id : Str
  text : Str
  is_final : Bool
  deriving DecidableEq, Repr

/-- `ResultProcessor._commit_partial_increment` (result_processor.py, lines
128-190).  Returns the updated state together with the text written to the
editor (`none` when nothing is written).  `fp` is the value of
`_should_force_paste(get_active_window_info())` during the call, `strm` the
`streaming` keyword argument.  In the source the four output paths
(`output` with paste, `output_streaming`, plain `output`) all write exactly
`delta`; only the `force-paste ∧ streaming` path defers and writes nothing. -/
def commit_partial_increment (fp strm : Bool) (st : PartialCommitState)
    (target : Str) : PartialCommitState × Option Str :=
  if target = [] then (st, none)
  else if ¬ st.committed_text <+: target ∧
      lcp_len st.committed_text target < st.committed_text.length then
    -- prefix regression upstream: log and skip, never delete
    (st, none)
  else
    let delta := target.drop st.committed_text.length
    if delta = [] then (st, none)
    else if fp ∧ strm then
      -- remote-control window while recording: defer to the final stage
      (st, none)
    else
      ({ st with committed_text := st.committed_text ++ delta }, some delta)

/-- The per-task map `ResultProcessor._partial_states`. -/
abbrev PMap := List (Str × PartialCommitState)

/-- `ResultProcessor._handle_partial_input` (result_processor.py, lines
192-232).  `recording` is `self.state.recording`; `fp` the force-paste window
test (taken as constant during the call).  Returns the updated per-task map
and the list of texts written to the editor, in order. -/
def handle_partial_input (recording fp : Bool) (msg : PartialMessage)
    (m : PMap) : PMap × List Str :=
  if msg.task_id = [] then (m, [])
  else
    let st := (lookupA m msg.task_id).getD {}
    let use_streaming := recording ∧ ¬ msg.is_final
    if ¬ msg.is_final then
      if st.prev_text = [] then
        (setA m msg.task_id { st with prev_text := msg.text }, [])
      else
        let stable := msg.text.take (lcp_len st.prev_text msg.text)
        let (st1, out) := commit_partial_increment fp use_streaming st stable
        (setA m msg.task_id { st1 with prev_text := msg.text }, out.toList)
    else if fp then
      -- remote-control window at final: one single commit of the final text
      let (_, out) := commit_partial_increment fp false st msg.text
      (eraseA m msg.task_id, out.toList)
    else
      let (st1, out1) :=
        if st.prev_text ≠ [] then
          let stable := msg.text.take (lcp_len st.prev_text msg.text)
          commit_partial_increment fp use_streaming st stable
        else (st, none)
      let (_, out2) := commit_partial_increment fp use_streaming st1 msg.text
      (eraseA m msg.task_id, out1.toList ++ out2.toList)

/-- Deliver a sequence of messages to `_handle_partial_input`; the second
component lists, per message, the concatenation of the texts written to the
editor while handling that message. -/
def run_partial_msgs (recording fp : Bool) : List PartialMessage → PMap →
    PMap × List Str
  | [], m => (m, [])
  | msg :: rest, m =>
    let (m1, outs) := handle_partial_input recording fp msg m
    let (m2, later) := run_partial_msgs recording fp rest m1
    (m2, outs.flatten :: later)

/-- Committed text recorded for task `t` (empty when no entry exists). -/
def committedOf (m : PMap) (t : Str) : Str :=
  match lookupA m t with
  | some st => st.committed_text
  | none => []

/-! ## Queue guard (src/util/server/queue_guard.py) -/

/-- The fields of `server_classes.Task` read by `QueueGuard.try_enqueue`.
Modelled from the spec: `util/server/server_classes.py` is not part of the
provided sources; the spec describes a Task carrying `socket_id` and
`is_final` (among payload fields irrelevant here). -/
structure GTask where
  socket_id : Str
  is_final : Bool
  deriving DecidableEq, Repr

/-- `QueueGuard` state (queue_guard.py, lines 20-23): `pending_total` and the
`defaultdict(int)` `pending_by_socket`.  Counters are Python ints (`Int`). -/
structure QueueGuard where
  pending_total : Int := 0
  pending_by_socket : List (Str × Int) := []
  deriving DecidableEq, Repr

/-- `QueueGuard.try_enqueue` (queue_guard.py, lines 25-58), parameterised by
the configured `queue_max_per_client` / `queue_max_total` limits.  Returns
the updated guard and the admission verdict. -/
def try_enqueue (mp mt : Int) (g : QueueGuard) (t : GTask) :
    QueueGuard × Bool :=
  let per := lookupZ g.pending_by_socket t.socket_id
  if ¬ t.is_final ∧ mp ≤ per then (g, false)
  else if ¬ t.is_final ∧ mt ≤ g.pending_total then (g, false)
  else
    ({ pending_total := g.pending_total + 1,
       pending_by_socket := setA g.pending_by_socket t.socket_id (per + 1) },
     true)

/-- `QueueGuard.on_task_done` (queue_guard.py, lines 60-74). -/
def on_task_done (g : QueueGuard) (s : Str) : QueueGuard :=
  let current := lookupZ g.pending_by_socket s
  let m1 := setA g.pending_by_socket s (if 0 < current then current - 1 else 0)
  let m2 := if lookupZ m1 s ≤ 0 then eraseA m1 s else m1
  { pending_total :=
      if 0 < g.pending_total then g.pending_total - 1 else 0,
    pending_by_socket := m2 }

/-- `QueueGuard.on_socket_closed` (queue_guard.py, lines 76-87).  `pop`
removes the binding and yields its value (default 0). -/
def on_socket_closed (g : QueueGuard) (s : Str) : QueueGuard :=
  let removed := lookupZ g.pending_by_socket s
  let m := eraseA g.pending_by_socket s
  if removed ≤ 0 then { g with pending_by_socket := m }
  else
    { pending_total := max 0 (g.pending_total - removed),
      pending_by_socket := m }

/-- The counter effect of one delivery handled by `ws_send`
(src/util/server/server_ws_send.py, lines 23-81): every branch — queue ack,
HTTP waiter, socket no longer present, successful send — calls
`queue_guard.on_task_done(result.socket_id)` exactly once.  In particular a
Result for an already-closed socket is *not* dropped before decrementing. -/
def ws_send_step (g : QueueGuard) (result_socket_id : Str) : QueueGuard :=
  on_task_done g result_socket_id

/-- One operation on the guard: an admission attempt, a completion receipt
(as issued by the `ws_send` delivery loop), or a socket close. -/
inductive GuardOp where
  | enq (t : GTask)
  | taskDone (s : Str)
  | close (s : Str)
  deriving DecidableEq, Repr

/-- Apply one operation to the guard (result of a rejected admission is the
unchanged guard). -/
def apply_op (mp mt : Int) (g : QueueGuard) : GuardOp → QueueGuard
  | .enq t => (try_enqueue mp mt g t).1
  | .taskDone s => ws_send_step g s
  | .close s => on_socket_closed g s

/-- Apply a sequence of operations. -/
def run_ops (mp mt : Int) (g : QueueGuard) : List GuardOp → QueueGuard
  | [] => g
  | op :: rest => run_ops mp mt (apply_op mp mt g op) rest

/-- A run is receipt-sound when every completion receipt arrives while its
socket still has a positive pending count (no receipt for a socket whose
pending tasks were already reclaimed by the close path). -/
def valid_run (mp mt : Int) : QueueGuard → List GuardOp → Bool
  | _, [] => true
  | g, op :: rest =>
    (match op with
     | .taskDone s => decide (0 < lookupZ g.pending_by_socket s)
     | _ => true) && valid_run mp mt (apply_op mp mt g op) rest

/-! ## Release tail (src/util/client/shortcut/task.py) -/

/-- The polling loop of `ShortcutTask._finish_with_release_tail` (task.py,
lines 119-160), in integer milliseconds with exact sleeps.  `lastVoice now`
models `max(state.last_voice_activity_time, recording_start_time)` as read at
time `now`; `asyncio.sleep(0.02)` advances time by exactly 20 ms.  The fuel
argument only serves termination; `max_wait + 1` ms of fuel always suffices
because every iteration advances time by at least 1 ms.  Returns the time at
which the loop breaks, i.e. at which `_finalize_finish` runs. -/
def release_tail_aux (minw maxw silw : Nat) (adaptive : Bool)
    (lastVoice : Nat → Nat) (release : Nat) : Nat → Nat → Nat
  | 0, now => now
  | fuel + 1, now =>
    let elapsed := now - release
    if maxw ≤ elapsed then now
    else if elapsed < minw then
      release_tail_aux minw maxw silw adaptive lastVoice release fuel
        (now + min 20 (minw - elapsed))
    else if ¬ adaptive then now
    else if silw ≤ now - lastVoice now then now
    else release_tail_aux minw maxw silw adaptive lastVoice release fuel
      (now + 20)

/-- `ShortcutTask.finish` (task.py, lines 191-213) composed with
`_finish_with_release_tail`: the time at which the `finish` event is emitted
after a key release at time `release` (ms).  When the tail is disabled or
`release_tail_ms` is 0, `_finalize_finish` runs immediately.  The
`min_wait` / `max_wait` / `silence_wait` clamps of lines 129-131 are the
`Nat` clamps below. -/
def finish_emit_time (enabled adaptive : Bool)
    (tail_ms tail_max_ms tail_silence_ms : Nat)
    (lastVoice : Nat → Nat) (release : Nat) : Nat :=
  if ¬ enabled ∨ tail_ms = 0 then release
  else
    let minw := tail_ms
    let maxw := max tail_ms tail_max_ms
    release_tail_aux minw maxw tail_silence_ms adaptive lastVoice release
      (maxw + 1) release

/-! ## Segmentation loop (src/util/server/server_http.py) -/

/-- The non-final emissions of the segmentation loop of
`_transcribe_file_via_queue` (server_http.py, lines 185-189 and 226-243 /
258-275): while the buffer holds at least `d + 2*o` samples, emit its first
`d + o` samples and advance it by `d` samples.  `d` and `o` are
`seg_duration` and `seg_overlap` converted to samples.  Modelled from the
spec: `AudioFormat.seconds_to_bytes` (util/constants.py, absent from the
sources) converts seconds to buffered f32/16 kHz sample bytes; the loop is
stated directly over samples.  The fuel argument only serves termination;
`cache.length` always suffices when `0 < d`. -/
def seg_emit {α : Type} (d o : Nat) : Nat → List α → List (List α)
  | 0, _ => []
  | fuel + 1, cache =>
    if d + 2 * o ≤ cache.length then
      cache.take (d + o) :: seg_emit d o fuel (cache.drop d)
    else []

/-- The buffer left over when the segmentation loop of
`_transcribe_file_via_queue` stops: it is sent as the single final segment
(server_http.py, lines 277-289). -/
def seg_rem {α : Type} (d o : Nat) : Nat → List α → List α
  | 0, cache => cache
  | fuel + 1, cache =>
    if d + 2 * o ≤ cache.length then seg_rem d o fuel (cache.drop d)
    else cache

/-- Full segmentation of an input stream: the non-final segments and the
final remainder segment. -/
def segment_stream {α : Type} (d o : Nat) (x : List α) :
    List (List α) × List α :=
  (seg_emit d o x.length x, seg_rem d o x.length x)

/-! ## Server configuration (src/config_server.py) -/

/-- The class-level attributes defined by `ServerConfig`
(config_server.py, lines 84-101) — the complete list. -/
def server_config_attrs : List String :=
  ["addr", "port", "model_type", "format_num", "format_spell",
   "enable_tray", "log_level"]

/-- Configuration attributes read (without a `getattr` default) by
`QueueGuard.try_enqueue` (queue_guard.py, lines 37 and 47). -/
def queue_guard_config_reads : List String :=
  ["queue_max_per_client", "queue_max_total"]

/-- Configuration attributes read (without a `getattr` default) by
`server_http.py` (`transcript_handler` lines 347-359 and
`start_http_server` lines 417-432). -/
def http_config_reads : List String :=
  ["http_seg_duration", "http_seg_overlap", "http_timeout_secs",
   "http_enable", "http_max_upload_mb", "http_addr", "http_port"]

/-! ## Translation prefix command (src/util/server/translate_prefix.py) -/

/-- Characters stripped by Python `str.strip()` with no argument (ASCII
whitespace; the texts handled here contain no exotic Unicode spaces). -/
def isPySpace (c : Char) : Bool :=
  c = ' ' ∨ c = '\t' ∨ c = '\n' ∨ c = '\r' ∨ c = '\x0b' ∨ c = '\x0c'

/-- Python `str.strip()`. -/
def pyStrip (s : Str) : Str :=
  ((s.dropWhile isPySpace).reverse.dropWhile isPySpace).reverse

/-- Python `str.lstrip()`. -/
def pyLstrip (s : Str) : Str :=
  s.dropWhile isPySpace

/-- ASCII case folding, modelling Python `str.lower()` on the ASCII range
(the only range the English trigger prefixes and aliases exercise). -/
def asciiLower (c : Char) : Char :=
  if 'A' ≤ c ∧ c ≤ 'Z' then Char.ofNat (c.toNat + 32) else c

/-- Python `str.lower()`. -/
def lowerStr (s : Str) : Str :=
  s.map asciiLower

/-- Python `str.isalnum()` for one character, on the ranges exercised here:
ASCII letters and digits, and CJK unified ideographs. -/
def pyIsAlnum (c : Char) : Bool :=
  c.isAlphanum ∨ ('一' ≤ c ∧ c ≤ '鿿')

/-- `_LEADING_SEPARATORS` (translate_prefix.py, line 27). -/
def leadingSeparators : Str := " \t\r\n:：,，。.;；!?！？、…".toList

/-- `_BRACKET_OPEN` (translate_prefix.py, line 28). -/
def bracketOpen : Str := "([\x7b（【《<".toList

/-- `_BRACKET_CLOSE` (translate_prefix.py, line 29). -/
def bracketClose : Str := ")]\x7d）】》>".toList

/-- `_trim_leading_separators` (translate_prefix.py, lines 101-102). -/
def trim_leading_separators (s : Str) : Str :=
  s.dropWhile (fun c => c ∈ leadingSeparators)

/-- `_strip_optional_brackets_prefix` (translate_prefix.py, lines 121-127):
drop one optional leading opening bracket. -/
def strip_brackets_front (s : Str) : Str :=
  let value := pyLstrip s
  match value with
  | [] => []
  | c :: rest => if c ∈ bracketOpen then pyLstrip rest else value

/-- `_strip_optional_brackets_after_lang` (translate_prefix.py, lines
130-134): drop one optional closing bracket, then leading separators. -/
def strip_after_lang (s : Str) : Str :=
  let value := pyLstrip s
  let value :=
    match value with
    | c :: rest => if c ∈ bracketClose then rest else value
    | [] => value
  trim_leading_separators value

/-- `_LANG_ALIASES_CN` in the order produced by
`sorted(..., key=len, reverse=True)` (translate_prefix.py, lines 35-66, 90):
stable sort, longest aliases first. -/
def cnAliases : List (Str × Str) :=
  [("印度尼西亚语".toList, "id".toList),
   ("简体中文".toList, "zh-CN".toList), ("繁体中文".toList, "zh-TW".toList),
   ("西班牙语".toList, "es".toList), ("葡萄牙语".toList, "pt".toList),
   ("意大利语".toList, "it".toList), ("阿拉伯语".toList, "ar".toList),
   ("土耳其语".toList, "tr".toList),
   ("朝鲜语".toList, "ko".toList), ("印地语".toList, "hi".toList),
   ("越南语".toList, "vi".toList), ("印尼语".toList, "id".toList),
   ("马来语".toList, "ms".toList),
   ("英语".toList, "en".toList), ("英文".toList, "en".toList),
   ("中文".toList, "zh".toList), ("汉语".toList, "zh".toList),
   ("日语".toList, "ja".toList), ("日文".toList, "ja".toList),
   ("西语".toList, "es".toList), ("法语".toList, "fr".toList),
   ("法文".toList, "fr".toList), ("德语".toList, "de".toList),
   ("德文".toList, "de".toList), ("俄语".toList, "ru".toList),
   ("俄文".toList, "ru".toList), ("韩语".toList, "ko".toList),
   ("葡语".toList, "pt".toList), ("意语".toList, "it".toList),
   ("泰语".toList, "th".toList)]

/-- `_LANG_ALIASES_EN` in the order produced by
`sorted(..., key=len, reverse=True)` (translate_prefix.py, lines 68-88, 91). -/
def enAliases : List (Str × Str) :=
  [("traditional chinese".toList, "zh-TW".toList),
   ("simplified chinese".toList, "zh-CN".toList),
   ("portuguese".toList, "pt".toList), ("vietnamese".toList, "vi".toList),
   ("indonesian".toList, "id".toList),
   ("japanese".toList, "ja".toList),
   ("english".toList, "en".toList), ("chinese".toList, "zh".toList),
   ("spanish".toList, "es".toList), ("russian".toList, "ru".toList),
   ("italian".toList, "it".toList), ("turkish".toList, "tr".toList),
   ("french".toList, "fr".toList), ("german".toList, "de".toList),
   ("korean".toList, "ko".toList), ("arabic".toList, "ar".toList),
   ("hindi".toList, "hi".toList), ("malay".toList, "ms".toList),
   ("thai".toList, "th".toList)]

/-- `_match_cn_alias` (translate_prefix.py, lines 137-142). -/
def match_cn_alias (rest : Str) : Option (Str × Str) :=
  cnAliases.findSome? fun p =>
    if p.1 <+: rest then
      some (p.2, strip_after_lang (rest.drop p.1.length))
    else none

/-- `_match_en_alias` (translate_prefix.py, lines 145-156): match on the
lower-cased text, and require a non-alphanumeric boundary after the alias. -/
def match_en_alias (rest : Str) : Option (Str × Str) :=
  let lower := lowerStr rest
  enAliases.findSome? fun p =>
    if p.1 <+: lower then
      let tail := rest.drop p.1.length
      match tail with
      | h :: _ =>
        -- boundary required after the alias; otherwise try the next alias
        if pyIsAlnum h ∨ h = '_' then none
        else some (p.2, strip_after_lang tail)
      | [] => some (p.2, strip_after_lang tail)
    else none

/-- Separators accepted directly after an ISO code
(translate_prefix.py, line 168). -/
def isoBoundaryChars : Str := ":：,，。;；!?！？、)]\x7d）】》>".toList

/-- ASCII letter test (`[A-Za-z]` of the regex in line 161). -/
def isAsciiAlpha (c : Char) : Bool :=
  ('a' ≤ c ∧ c ≤ 'z') ∨ ('A' ≤ c ∧ c ≤ 'Z')

/-- `_match_iso_code` (translate_prefix.py, lines 159-171): the greedy match
of `^([A-Za-z]{2,3}(?:[-_][A-Za-z]{2,4})?)(.*)$`, the `_` → `-`
normalisation, and the boundary check on the tail. -/
def match_iso_code (rest : Str) : Option (Str × Str) :=
  let run1 := rest.takeWhile isAsciiAlpha
  if run1.length < 2 then none
  else
    let code1 := run1.take 3
    let tail1 := rest.drop code1.length
    let next :=
      match tail1 with
      | c :: t2 =>
        if c = '-' ∨ c = '_' then
          let run2 := t2.takeWhile isAsciiAlpha
          if 2 ≤ run2.length then
            (code1 ++ '-' :: run2.take 4, t2.drop (min 4 run2.length))
          else (code1, tail1)
        else (code1, tail1)
      | [] => (code1, tail1)
    let code := next.1
    let tail := next.2
    match tail with
    | h :: _ =>
      if ¬ isPySpace h ∧ h ∉ isoBoundaryChars then none
      else some (code, strip_after_lang tail)
    | [] => some (code, strip_after_lang tail)

/-- One pass of the candidate loop body of `_parse_target_and_content`
(translate_prefix.py, lines 184-194): strip the candidate and run the three
matchers in order. -/
def try_candidate (c : Str) : Option (Str × Str) :=
  let c := pyStrip c
  if c = [] then none
  else (match_cn_alias c).orElse fun _ =>
    (match_en_alias c).orElse fun _ => match_iso_code c

/-- `_parse_target_and_content` (translate_prefix.py, lines 174-196):
target language and content, defaulting to English. -/
def parse_target_and_content (rest : Str) : Str × Str :=
  let text := trim_leading_separators rest
  if text = [] then ("en".toList, [])
  else
    match (try_candidate text).orElse
        (fun _ => try_candidate (strip_brackets_front text)) with
    | some (lang, content) => (lang, pyStrip content)
    | none => ("en".toList, pyStrip text)

/-- `TranslateCommand` (translate_prefix.py, lines 94-98). -/
structure TranslateCommand where
  target_lang : Str
  content : Str
  trigger : Str
  deriving DecidableEq, Repr

/-- `parse_translate_command` (translate_prefix.py, lines 199-218): the
trigger prefixes are `_CN_PREFIXES = ("请翻译为", "请翻译")` and
`_EN_PREFIXES = ("please translate to", "please translate")`, the English
ones matched on the lower-cased text. -/
def parse_translate_command (text : Str) : Option TranslateCommand :=
  let raw := pyStrip text
  if raw = [] then none
  else if "请翻译为".toList <+: raw then
    let tc := parse_target_and_content (raw.drop 4)
    some ⟨tc.1, tc.2, "请翻译为".toList⟩
  else if "请翻译".toList <+: raw then
    let tc := parse_target_and_content (raw.drop 3)
    some ⟨tc.1, tc.2, "请翻译".toList⟩
  else if "please translate to".toList <+: lowerStr raw then
    let tc := parse_target_and_content (raw.drop 19)
    some ⟨tc.1, tc.2, "please translate to".toList⟩
  else if "please translate".toList <+: lowerStr raw then
    let tc := parse_target_and_content (raw.drop 16)
    some ⟨tc.1, tc.2, "please translate".toList⟩
  else none

/-- `maybe_translate_prefixed_text` (translate_prefix.py, lines 285-309).
`backend content target_lang` abstracts `_translate_via_mtran` (an HTTP
call); it returns `none` on failure.  The function returns the replacement
text, or `none` when the original text passes through unchanged. -/
def maybe_translate_prefixed_text (enabled : Bool)
    (backend : Str → Str → Option Str) (text : Str) : Option Str :=
  if ¬ enabled then none
  else
    match parse_translate_command text with
    | none => none
    | some command =>
      if command.content = [] then none
      else
        match backend command.content command.target_lang with
        | some translated => if translated = [] then none else some translated
        | none => none

/-- The guard under which `maybe_translate_prefixed_text` reaches the
`_translate_via_mtran` call (translate_prefix.py, lines 289-298): translation
is attempted exactly when enabled, a trigger prefix parses, and the parsed
content is non-empty. -/
def translate_attempted (enabled : Bool) (text : Str) : Bool :=
  enabled &&
    (match parse_translate_command text with
     | some command => command.content ≠ []
     | none => false)

/-! ## Trailing punctuation stripping
(src/util/client/output/text_output.py) -/

/-- The substitution performed by
`re.sub(f"(?<=.)[{trash}]$", "", text)` (text_output.py, line 48), on the
reversed text.  Python regex semantics: `$` matches at the end of the string
and also just before a single trailing `'\n'`; the lookbehind `(?<=.)`
requires a preceding character other than `'\n'`; `re.sub` replaces every
(non-overlapping) match, scanning left to right — so when the text ends in
`'\n'` the character before it is examined first, and the trailing `'\n'`
itself is examined next. -/
def strip_punc_rev (trash : Str) : Str → Str
  | [] => []
  | [c] => [c]
  | c :: d :: rest =>
    if c = '\n' then
      match rest with
      | e :: rest2 =>
        if d ∈ trash ∧ e ≠ '\n' then
          -- match at the character before the trailing newline ...
          if c ∈ trash ∧ d ≠ '\n' then
            -- ... and the newline itself also matches ([set] contains '\n')
            e :: rest2
          else c :: e :: rest2
        else if c ∈ trash ∧ d ≠ '\n' then d :: e :: rest2
        else c :: d :: e :: rest2
      | [] =>
        if c ∈ trash ∧ d ≠ '\n' then [d] else [c, d]
    else
      if c ∈ trash ∧ d ≠ '\n' then d :: rest else c :: d :: rest

/-- `TextOutput.strip_punc` (text_output.py, lines 35-49): remove the last
trailing punctuation character.  `trash` is `Config.trash_punc`, assumed (as
in the claim) to contain no regex metacharacters, so the class
`[{trash}]` matches exactly the characters of `trash`. -/
def strip_punc (trash : Str) (text : Str) : Str :=
  if text = [] ∨ trash = [] then text
  else (strip_punc_rev trash text.reverse).reverse

/-! ## Concrete scenarios used by the claims -/

/-- Scenario S1: partials `你`, `你好`, `你好世`, then final `你好世界`,
all for one task. -/
def s1_messages : List PartialMessage :=
  [⟨"t".toList, "你".toList, false⟩,
   ⟨"t".toList, "你好".toList, false⟩,
   ⟨"t".toList, "你好世".toList, false⟩,
   ⟨"t".toList, "你好世界".toList, true⟩]

/-- A partial sequence whose third text regresses: `ab`, `ab`, `ax`. -/
def regression_messages : List PartialMessage :=
  [⟨"t".toList, "ab".toList, false⟩,
   ⟨"t".toList, "ab".toList, false⟩,
   ⟨"t".toList, "ax".toList, false⟩]

/-- Admissions for two sockets followed by the close of the first: the
pending task of socket `A` is reclaimed by the close path, while its Result
is still to be delivered. -/
def late_receipt_trace : List GuardOp :=
  [.enq ⟨"A".toList, true⟩, .enq ⟨"B".toList, true⟩, .close "A".toList]

/-- Scenario S3, with `queue_max_per_client = 2`, `queue_max_total = 10`:
three non-final admissions for one socket, then a final one. -/
def s3_g1 : QueueGuard × Bool := try_enqueue 2 10 {} ⟨"A".toList, false⟩

/-- Second non-final admission of scenario S3. -/
def s3_g2 : QueueGuard × Bool := try_enqueue 2 10 s3_g1.1 ⟨"A".toList, false⟩

/-- Third non-final admission of scenario S3. -/
def s3_g3 : QueueGuard × Bool := try_enqueue 2 10 s3_g2.1 ⟨"A".toList, false⟩

/-- Final admission of scenario S3. -/
def s3_g4 : QueueGuard × Bool := try_enqueue 2 10 s3_g3.1 ⟨"A".toList, true⟩

/-- A receipt-sound trace: one admission, then its delivery receipt. -/
def sound_trace : List GuardOp :=
  [.enq ⟨"A".toList, false⟩, .taskDone "A".toList]

/-! # Theorems

First the generic helper lemmas, then one theorem (with, where required, a
witness or counterexample) per verified claim. -/

/-! ## Longest common prefix -/

theorem lcp_len_le_left (a : Str) : ∀ b, lcp_len a b ≤ a.length := by
  induction a with
  | nil => intro b; cases b <;> simp [lcp_len]
  | cons x xs ih =>
    intro b
    cases b with
    | nil => simp [lcp_len]
    | cons y ys =>
      by_cases h : x = y
      · simpa [lcp_len, h] using ih ys
      · simp [lcp_len, h]

theorem lcp_len_eq_left_iff (a : Str) : ∀ b, lcp_len a b = a.length ↔ a <+: b := by
  induction a with
  | nil => intro b; cases b <;> simp [lcp_len]
  | cons x xs ih =>
    intro b
    cases b with
    | nil =>
      simp [lcp_len]
    | cons y ys =>
      by_cases h : x = y
      · subst h
        simp [lcp_len, List.cons_prefix_cons, ih ys]
      · simp [lcp_len, List.cons_prefix_cons, h]

theorem lcp_len_lt_of_regression {a b : Str} (h : ¬ a <+: b) :
    lcp_len a b < a.length :=
  lt_of_le_of_ne (lcp_len_le_left a b) (fun he => h ((lcp_len_eq_left_iff a b).mp he))

/-! ## Commit step -/

theorem commit_committed_extends (fp strm : Bool) (st : PartialCommitState)
    (target : Str) :
    (commit_partial_increment fp strm st target).1.committed_text =
      st.committed_text ++
        ((commit_partial_increment fp strm st target).2.getD []) := by
  unfold commit_partial_increment
  split_ifs <;> (try simp) <;> (split <;> simp)

theorem commit_keeps_prev (fp strm : Bool) (st : PartialCommitState)
    (target : Str) :
    (commit_partial_increment fp strm st target).1.prev_text = st.prev_text := by
  unfold commit_partial_increment
  split_ifs <;> (try simp) <;> (split <;> simp)

/-! ## Association lists -/

theorem lookupA_cons {β : Type} (a : Str) (v : β) (m : List (Str × β))
    (t : Str) :
    lookupA ((a, v) :: m) t = if a = t then some v else lookupA m t := by
  by_cases h : a = t <;> simp [lookupA, List.find?, h]

theorem eraseA_cons {β : Type} (a : Str) (v : β) (m : List (Str × β))
    (k : Str) :
    eraseA ((a, v) :: m) k =
      if a = k then eraseA m k else (a, v) :: eraseA m k := by
  by_cases h : a = k <;> simp [eraseA, h]

theorem lookupA_eraseA_self {β : Type} (m : List (Str × β)) (k : Str) :
    lookupA (eraseA m k) k = none := by
  induction m with
  | nil => simp [lookupA, eraseA]
  | cons p m ih =>
    obtain ⟨a, v⟩ := p
    by_cases h : a = k
    · simpa [eraseA_cons, h] using ih
    · simpa [eraseA_cons, lookupA_cons, h] using ih

theorem lookupA_eraseA_ne {β : Type} (m : List (Str × β)) {k t : Str}
    (h : t ≠ k) : lookupA (eraseA m k) t = lookupA m t := by
  induction m with
  | nil => simp [lookupA, eraseA]
  | cons p m ih =>
    obtain ⟨a, v⟩ := p
    by_cases hp : a = k
    · subst hp
      have hat : ¬ a = t := fun he => h he.symm
      simp [eraseA_cons, lookupA_cons, hat, ih]
    · by_cases hpt : a = t <;>
        simp [eraseA_cons, lookupA_cons, hp, hpt, h, ih]

theorem lookupA_setA_self {β : Type} (m : List (Str × β)) (k : Str) (v : β) :
    lookupA (setA m k v) k = some v := by
  simp [setA, lookupA_cons]

theorem lookupA_setA_ne {β : Type} (m : List (Str × β)) {k t : Str} (v : β)
    (h : t ≠ k) : lookupA (setA m k v) t = lookupA m t := by
  have hk : ¬ k = t := fun he => h he.symm
  rw [setA, lookupA_cons, if_neg hk, lookupA_eraseA_ne m h]

theorem committedOf_eq_getD (m : PMap) (t : Str) :
    committedOf m t = ((lookupA m t).getD {}).committed_text := by
  unfold committedOf
  cases lookupA m t <;> simp

/-! ## Monotonicity of the partial commit handler -/

theorem handle_committed_monotone (rec fp : Bool) (msg : PartialMessage)
    (m : PMap) (t : Str) (hnf : msg.is_final = false) :
    committedOf m t <+: committedOf (handle_partial_input rec fp msg m).1 t := by
  by_cases hid : msg.task_id = []
  · simp [handle_partial_input, hid]
  · by_cases hts : t = msg.task_id
    · subst hts
      by_cases hprev : ((lookupA m msg.task_id).getD {}).prev_text = []
      · simp [handle_partial_input, hid, hnf, hprev, committedOf_eq_getD,
          lookupA_setA_self]
      · simp [handle_partial_input, hid, hnf, hprev, committedOf_eq_getD,
          lookupA_setA_self, commit_committed_extends]
    · by_cases hprev : ((lookupA m msg.task_id).getD {}).prev_text = []
      · simp [handle_partial_input, hid, hnf, hprev, committedOf_eq_getD,
          lookupA_setA_ne _ _ hts]
      · simp [handle_partial_input, hid, hnf, hprev, committedOf_eq_getD,
          lookupA_setA_ne _ _ hts]

theorem run_committed_monotone (rec fp : Bool) (msgs : List PartialMessage) :
    ∀ m t, (∀ msg ∈ msgs, msg.is_final = false) →
      committedOf m t <+: committedOf (run_partial_msgs rec fp msgs m).1 t := by
  induction msgs with
  | nil => intro m t _; exact List.prefix_rfl
  | cons msg rest ih =>
    intro m t hnf
    have h1 := handle_committed_monotone rec fp msg m t (hnf msg (by simp))
    have h2 := ih (handle_partial_input rec fp msg m).1 t
      (fun x hx => hnf x (by simp [hx]))
    calc committedOf m t
        <+: committedOf (handle_partial_input rec fp msg m).1 t := h1
      _ <+: _ := by
          simpa [run_partial_msgs] using h2

/-! ## Claim C1 -/

/-- C1, counterexample: in scenario S1 the texts written per message are not
`""`, `你`, `你好`, `世界` as the claim states — the third partial commits
only the increment `好` beyond the already-committed `你`, not the full
stable prefix `你好`. -/
theorem s1_claimed_writes_cex :
    (run_partial_msgs true false s1_messages []).2 ≠
      [[], "你".toList, "你好".toList, "世界".toList] := by
  decide

/-- C1 (amended): delivering the partials `你`, `你好`, `你好世` and the
final `你好世界` for one task from an empty committed state writes, per
message, `""` (nothing), `你`, `好` (the increment of the stable prefix
`你好` beyond the committed `你`), and `世界` (as `世` then `界`); the
total committed text is `你好世界` and the task's `PartialCommitState`
entry is removed from the per-task map. -/
theorem s1_lag1_commit :
    (run_partial_msgs true false s1_messages []).2 =
      [[], "你".toList, "好".toList, "世界".toList] ∧
    (run_partial_msgs true false s1_messages []).2.flatten = "你好世界".toList ∧
    lookupA (run_partial_msgs true false s1_messages []).1 "t".toList = none := by
  decide

/-! ## Claim C2 -/

/-- C2, counterexample: after the all-partial sequence `ab`, `ab`, `ax` the
committed text is `ab`, which is *not* a prefix of the last processed
partial `ax` — the first conjunct of the claim fails. -/
theorem regressed_partial_committed_cex :
    regression_messages.all (fun msg => !msg.is_final) = true ∧
    (regression_messages.getLast?.map (fun msg => msg.text) =
      some "ax".toList) ∧
    committedOf (run_partial_msgs true false regression_messages []).1
      "t".toList = "ab".toList ∧
    ¬ (committedOf (run_partial_msgs true false regression_messages []).1
        "t".toList <+: "ax".toList) := by
  decide

/-- C2 (amended): over any sequence of non-final partial Results, for every
task the committed text only ever grows by appending — the old committed
text stays a prefix of the new one and its length never decreases; no
operation deletes already-committed characters.  (The committed text need
not be a prefix of the newest partial: a regressed partial is skipped and
the longer committed text is kept.) -/
theorem partial_committed_monotone (recording fp : Bool)
    (msgs : List PartialMessage) (m : PMap) (t : Str)
    (h : ∀ msg ∈ msgs, msg.is_final = false) :
    committedOf m t <+:
      committedOf (run_partial_msgs recording fp msgs m).1 t ∧
    (committedOf m t).length ≤
      (committedOf (run_partial_msgs recording fp msgs m).1 t).length := by
  have hp := run_committed_monotone recording fp msgs m t h
  exact ⟨hp, hp.length_le⟩

/-- Witness for C2 at the concrete regression sequence. -/
theorem partial_committed_monotone_witness :
    committedOf [] "t".toList <+:
      committedOf (run_partial_msgs true false regression_messages []).1
        "t".toList ∧
    (committedOf [] "t".toList).length ≤
      (committedOf (run_partial_msgs true false regression_messages []).1
        "t".toList).length :=
  partial_committed_monotone true false regression_messages [] "t".toList
    (by decide)

/-! ## Claim C5 -/

/-- C5: whenever the commit target does not start with the already-committed
text (an upstream prefix regression), `_commit_partial_increment` skips,
leaving the state unchanged and writing nothing to the editor. -/
theorem commit_skips_regression (fp strm : Bool) (st : PartialCommitState)
    (target : Str) (h : ¬ st.committed_text <+: target) :
    commit_partial_increment fp strm st target = (st, none) := by
  unfold commit_partial_increment
  by_cases ht : target = []
  · simp [ht]
  · rw [if_neg ht, if_pos ⟨h, lcp_len_lt_of_regression h⟩]

/-- Witness for C5: with committed `hello`, an incoming `help` is ignored. -/
theorem commit_skips_regression_witness :
    commit_partial_increment false false
      ⟨"hello".toList, "hello".toList⟩ "help".toList =
      (⟨"hello".toList, "hello".toList⟩, none) :=
  commit_skips_regression false false _ _ (by decide)

/-! ## Association lists: keys and sums -/

theorem eraseA_eq_of_lookupA_none {β : Type} {m : List (Str × β)} {k : Str}
    (h : lookupA m k = none) : eraseA m k = m := by
  induction m with
  | nil => rfl
  | cons p m ih =>
    obtain ⟨a, v⟩ := p
    rw [lookupA_cons] at h
    by_cases ha : a = k
    · rw [if_pos ha] at h; exact absurd h (by simp)
    · rw [if_neg ha] at h
      rw [eraseA_cons, if_neg ha, ih h]

theorem eraseA_of_not_mem {β : Type} {m : List (Str × β)} {k : Str}
    (h : k ∉ m.map Prod.fst) : eraseA m k = m := by
  induction m with
  | nil => simp [eraseA]
  | cons p m ih =>
    obtain ⟨a, v⟩ := p
    simp only [List.map_cons, List.mem_cons, not_or] at h
    have ha : ¬ a = k := fun he => h.1 he.symm
    simp [eraseA_cons, ha, ih h.2]

theorem not_mem_keys_eraseA {β : Type} (m : List (Str × β)) (k : Str) :
    k ∉ (eraseA m k).map Prod.fst := by
  intro hmem
  obtain ⟨p, hp, hk⟩ := List.mem_map.mp hmem
  have hfilter := List.of_mem_filter hp
  simp only [decide_eq_true_eq] at hfilter
  exact hfilter (by simpa using hk)

theorem keys_eraseA_sublist {β : Type} (m : List (Str × β)) (k : Str) :
    ((eraseA m k).map Prod.fst).Sublist (m.map Prod.fst) :=
  (List.filter_sublist m).map Prod.fst

theorem eraseA_idem {β : Type} (m : List (Str × β)) (k : Str) :
    eraseA (eraseA m k) k = eraseA m k :=
  eraseA_of_not_mem (not_mem_keys_eraseA m k)

theorem eraseA_setA {β : Type} (m : List (Str × β)) (k : Str) (v : β) :
    eraseA (setA m k v) k = eraseA m k := by
  simp [setA, eraseA_cons, eraseA_idem]

theorem sumVals_cons (a : Str) (v : Int) (m : List (Str × Int)) :
    sumVals ((a, v) :: m) = v + sumVals m := by
  simp [sumVals]

theorem sumVals_split (m : List (Str × Int)) (k : Str)
    (hnd : (m.map Prod.fst).Nodup) :
    sumVals m = lookupZ m k + sumVals (eraseA m k) := by
  induction m with
  | nil => simp [sumVals, lookupZ, lookupA, eraseA]
  | cons p m ih =>
    obtain ⟨a, v⟩ := p
    simp only [List.map_cons, List.nodup_cons] at hnd
    by_cases h : a = k
    · subst h
      have hm : eraseA m a = m := eraseA_of_not_mem hnd.1
      simp [sumVals_cons, lookupZ, lookupA_cons, eraseA_cons, hm]
    · have := ih hnd.2
      simp only [sumVals_cons, lookupZ, lookupA_cons, eraseA_cons, if_neg h]
      simp only [lookupZ] at this
      omega

theorem sumVals_setA (m : List (Str × Int)) (k : Str) (v : Int) :
    sumVals (setA m k v) = v + sumVals (eraseA m k) := by
  simp [setA, sumVals_cons]

theorem sumVals_nonneg (m : List (Str × Int))
    (h : ∀ p ∈ m, 0 ≤ p.2) : 0 ≤ sumVals m := by
  refine List.sum_nonneg ?_
  intro x hx
  obtain ⟨p, hp, rfl⟩ := List.mem_map.mp hx
  exact h p hp

theorem lookupA_some_mem {β : Type} {m : List (Str × β)} {k : Str} {v : β}
    (h : lookupA m k = some v) : (k, v) ∈ m := by
  unfold lookupA at h
  obtain ⟨q, hq, hv⟩ := Option.map_eq_some'.mp h
  have hmem := List.mem_of_find?_eq_some hq
  have hkey := List.find?_some hq
  simp only [decide_eq_true_eq] at hkey
  have : q = (k, v) := by
    cases q; simp_all
  rwa [this] at hmem

theorem lookupZ_nonneg (m : List (Str × Int))
    (h : ∀ p ∈ m, 0 ≤ p.2) (k : Str) : 0 ≤ lookupZ m k := by
  unfold lookupZ
  cases hv : lookupA m k with
  | none => simp
  | some v =>
    have := h _ (lookupA_some_mem hv)
    simpa using this

theorem lookupZ_eq_of_lookupA {m : List (Str × Int)} {k : Str} {v : Int}
    (h : lookupA m k = some v) : lookupZ m k = v := by
  simp [lookupZ, h]

/-! ## Queue guard invariants -/

theorem guard_wf_enq (mp mt : Int) (g : QueueGuard) (t : GTask)
    (hnd : (g.pending_by_socket.map Prod.fst).Nodup)
    (hpos : ∀ p ∈ g.pending_by_socket, 0 < p.2)
    (hsum : g.pending_total = sumVals g.pending_by_socket) :
    ((try_enqueue mp mt g t).1.pending_by_socket.map Prod.fst).Nodup ∧
    (∀ p ∈ (try_enqueue mp mt g t).1.pending_by_socket, 0 < p.2) ∧
    (try_enqueue mp mt g t).1.pending_total =
      sumVals (try_enqueue mp mt g t).1.pending_by_socket := by
  have hge : ∀ p ∈ g.pending_by_socket, (0:Int) ≤ p.2 :=
    fun p hp => le_of_lt (hpos p hp)
  simp only [try_enqueue]
  split_ifs
  · exact ⟨hnd, hpos, hsum⟩
  · exact ⟨hnd, hpos, hsum⟩
  · refine ⟨?_, ?_, ?_⟩
    · simp only [setA, List.map_cons, List.nodup_cons]
      exact ⟨not_mem_keys_eraseA _ _, (keys_eraseA_sublist _ _).nodup hnd⟩
    · intro p hp
      simp only [setA, List.mem_cons] at hp
      rcases hp with rfl | hp
      · have := lookupZ_nonneg g.pending_by_socket hge t.socket_id
        simpa using by omega
      · exact hpos p (List.mem_of_mem_filter hp)
    · have hsplit := sumVals_split g.pending_by_socket t.socket_id hnd
      have := sumVals_setA g.pending_by_socket t.socket_id
        (lookupZ g.pending_by_socket t.socket_id + 1)
      simp only [this]
      omega

theorem guard_wf_close (g : QueueGuard) (s : Str)
    (hnd : (g.pending_by_socket.map Prod.fst).Nodup)
    (hpos : ∀ p ∈ g.pending_by_socket, 0 < p.2)
    (hsum : g.pending_total = sumVals g.pending_by_socket) :
    ((on_socket_closed g s).pending_by_socket.map Prod.fst).Nodup ∧
    (∀ p ∈ (on_socket_closed g s).pending_by_socket, 0 < p.2) ∧
    (on_socket_closed g s).pending_total =
      sumVals (on_socket_closed g s).pending_by_socket := by
  have hge : ∀ p ∈ g.pending_by_socket, (0:Int) ≤ p.2 :=
    fun p hp => le_of_lt (hpos p hp)
  have hnderase : ((eraseA g.pending_by_socket s).map Prod.fst).Nodup :=
    (keys_eraseA_sublist _ _).nodup hnd
  have hposerase : ∀ p ∈ eraseA g.pending_by_socket s, 0 < p.2 :=
    fun p hp => hpos p (List.mem_of_mem_filter hp)
  have hsplit := sumVals_split g.pending_by_socket s hnd
  simp only [on_socket_closed]
  split_ifs with h
  · -- removed ≤ 0: with positive values the socket is absent
    have hnone : lookupA g.pending_by_socket s = none := by
      cases hv : lookupA g.pending_by_socket s with
      | none => rfl
      | some v =>
        have := hpos _ (lookupA_some_mem hv)
        have := lookupZ_eq_of_lookupA hv
        simp only at this
        omega
    have : eraseA g.pending_by_socket s = g.pending_by_socket :=
      eraseA_eq_of_lookupA_none hnone
    refine ⟨?_, ?_, ?_⟩ <;> simp only [this]
    · exact hnd
    · exact hpos
    · exact hsum
  · refine ⟨hnderase, hposerase, ?_⟩
    have hrem : 0 ≤ sumVals (eraseA g.pending_by_socket s) :=
      sumVals_nonneg _ (fun p hp => le_of_lt (hposerase p hp))
    simp only
    omega

theorem guard_wf_done (g : QueueGuard) (s : Str)
    (hv : 0 < lookupZ g.pending_by_socket s)
    (hnd : (g.pending_by_socket.map Prod.fst).Nodup)
    (hpos : ∀ p ∈ g.pending_by_socket, 0 < p.2)
    (hsum : g.pending_total = sumVals g.pending_by_socket) :
    ((on_task_done g s).pending_by_socket.map Prod.fst).Nodup ∧
    (∀ p ∈ (on_task_done g s).pending_by_socket, 0 < p.2) ∧
    (on_task_done g s).pending_total =
      sumVals (on_task_done g s).pending_by_socket := by
  have hnderase : ((eraseA g.pending_by_socket s).map Prod.fst).Nodup :=
    (keys_eraseA_sublist _ _).nodup hnd
  have hposerase : ∀ p ∈ eraseA g.pending_by_socket s, 0 < p.2 :=
    fun p hp => hpos p (List.mem_of_mem_filter hp)
  have hsplit := sumVals_split g.pending_by_socket s hnd
  have herase0 : 0 ≤ sumVals (eraseA g.pending_by_socket s) :=
    sumVals_nonneg _ (fun p hp => le_of_lt (hposerase p hp))
  have htotpos : 0 < g.pending_total := by omega
  set cur := lookupZ g.pending_by_socket s with hcur
  simp only [on_task_done]
  rw [if_pos hv]
  have hlook : lookupZ (setA g.pending_by_socket s (cur - 1)) s = cur - 1 := by
    simp [lookupZ, lookupA_setA_self]
  by_cases hone : cur - 1 ≤ 0
  · -- the decremented count reaches 0: the binding is removed
    have hc1 : cur = 1 := by omega
    rw [← hcur, if_pos (by rw [hlook]; omega)]
    rw [eraseA_setA]
    refine ⟨hnderase, hposerase, ?_⟩
    simp only [if_pos htotpos]
    omega
  · rw [← hcur, if_neg (by rw [hlook]; omega)]
    refine ⟨?_, ?_, ?_⟩
    · simp only [setA, List.map_cons, List.nodup_cons]
      exact ⟨not_mem_keys_eraseA _ _, hnderase⟩
    · intro p hp
      simp only [setA, List.mem_cons] at hp
      rcases hp with rfl | hp
      · simpa using by omega
      · exact hposerase p hp
    · have := sumVals_setA g.pending_by_socket s (cur - 1)
      simp only [this, if_pos htotpos]
      omega

/-! ## Queue guard: non-negativity without any soundness assumption -/

theorem guard_nonneg_step (mp mt : Int) (g : QueueGuard) (op : GuardOp)
    (ht : 0 ≤ g.pending_total)
    (hge : ∀ p ∈ g.pending_by_socket, 0 ≤ p.2) :
    0 ≤ (apply_op mp mt g op).pending_total ∧
    ∀ p ∈ (apply_op mp mt g op).pending_by_socket, 0 ≤ p.2 := by
  cases op with
  | enq t =>
    simp only [apply_op, try_enqueue]
    split_ifs
    · exact ⟨ht, hge⟩
    · exact ⟨ht, hge⟩
    · refine ⟨by simp only; omega, ?_⟩
      intro p hp
      simp only [setA, List.mem_cons] at hp
      rcases hp with rfl | hp
      · have := lookupZ_nonneg g.pending_by_socket hge t.socket_id
        simpa using by omega
      · exact hge p (List.mem_of_mem_filter hp)
  | taskDone s =>
    simp only [apply_op, ws_send_step, on_task_done]
    refine ⟨by split_ifs <;> omega, ?_⟩
    intro p hp
    split_ifs at hp with h1 h2 h3
    · rw [eraseA_setA] at hp
      exact hge p (List.mem_of_mem_filter hp)
    · simp only [setA, List.mem_cons] at hp
      rcases hp with rfl | hp
      · show (0:Int) ≤ lookupZ g.pending_by_socket s - 1
        omega
      · exact hge p (List.mem_of_mem_filter hp)
    · rw [eraseA_setA] at hp
      exact hge p (List.mem_of_mem_filter hp)
    · simp only [setA, List.mem_cons] at hp
      rcases hp with rfl | hp
      · exact le_refl 0
      · exact hge p (List.mem_of_mem_filter hp)
  | close s =>
    simp only [apply_op, on_socket_closed]
    split_ifs
    · exact ⟨ht, fun p hp => hge p (List.mem_of_mem_filter hp)⟩
    · exact ⟨le_max_left 0 _, fun p hp => hge p (List.mem_of_mem_filter hp)⟩

theorem run_ops_nonneg (mp mt : Int) :
    ∀ (ops : List GuardOp) (g : QueueGuard),
      0 ≤ g.pending_total → (∀ p ∈ g.pending_by_socket, 0 ≤ p.2) →
      0 ≤ (run_ops mp mt g ops).pending_total ∧
        ∀ p ∈ (run_ops mp mt g ops).pending_by_socket, 0 ≤ p.2 := by
  intro ops
  induction ops with
  | nil => intro g h1 h2; exact ⟨h1, h2⟩
  | cons op rest ih =>
    intro g h1 h2
    have hstep := guard_nonneg_step mp mt g op h1 h2
    simpa [run_ops] using ih _ hstep.1 hstep.2

theorem run_ops_wf (mp mt : Int) :
    ∀ (ops : List GuardOp) (g : QueueGuard),
      (g.pending_by_socket.map Prod.fst).Nodup →
      (∀ p ∈ g.pending_by_socket, 0 < p.2) →
      g.pending_total = sumVals g.pending_by_socket →
      valid_run mp mt g ops = true →
      ((run_ops mp mt g ops).pending_by_socket.map Prod.fst).Nodup ∧
      (∀ p ∈ (run_ops mp mt g ops).pending_by_socket, 0 < p.2) ∧
      (run_ops mp mt g ops).pending_total =
        sumVals (run_ops mp mt g ops).pending_by_socket := by
  intro ops
  induction ops with
  | nil => intro g h1 h2 h3 _; exact ⟨h1, h2, h3⟩
  | cons op rest ih =>
    intro g h1 h2 h3 hval
    cases op with
    | enq t =>
      have hstep := guard_wf_enq mp mt g t h1 h2 h3
      have hval' : valid_run mp mt (try_enqueue mp mt g t).1 rest = true := by
        simpa [valid_run, apply_op] using hval
      have := ih _ hstep.1 hstep.2.1 hstep.2.2 hval'
      simpa [run_ops, apply_op] using this
    | taskDone s =>
      simp only [valid_run, Bool.and_eq_true, decide_eq_true_eq] at hval
      have hstep := guard_wf_done g s hval.1 h1 h2 h3
      have := ih _ hstep.1 hstep.2.1 hstep.2.2
        (by simpa [apply_op, ws_send_step] using hval.2)
      simpa [run_ops, apply_op, ws_send_step] using this
    | close s =>
      have hstep := guard_wf_close g s h1 h2 h3
      have hval' : valid_run mp mt (on_socket_closed g s) rest = true := by
        simpa [valid_run, apply_op] using hval
      have := ih _ hstep.1 hstep.2.1 hstep.2.2 hval'
      simpa [run_ops, apply_op] using this

theorem try_enqueue_eq (mp mt : Int) (g : QueueGuard) (t : GTask) :
    try_enqueue mp mt g t =
      if ¬ t.is_final ∧ (mp ≤ lookupZ g.pending_by_socket t.socket_id ∨
          mt ≤ g.pending_total) then (g, false)
      else
        ({ pending_total := g.pending_total + 1,
           pending_by_socket := setA g.pending_by_socket t.socket_id
             (lookupZ g.pending_by_socket t.socket_id + 1) }, true) := by
  obtain ⟨sid, fin⟩ := t
  cases fin
  · by_cases h1 : mp ≤ lookupZ g.pending_by_socket sid
    · simp [try_enqueue, h1]
    · by_cases h2 : mt ≤ g.pending_total <;> simp [try_enqueue, h1, h2]
  · simp [try_enqueue]

/-! ## Claim C3 -/

/-- C3: a final task is always admitted, incrementing both counters; a
non-final task is rejected with unchanged counters when the sender's
per-socket count is at or above `queue_max_per_client`, otherwise when the
total is at or above `queue_max_total`, and otherwise admitted with both
counters incremented.  With limits 2/10, three non-final admissions for one
socket yield `true, true, false`, and a following final one yields `true`
with that socket's count at 3. -/
theorem queue_admission_rules :
    (∀ (mp mt : Int) (g : QueueGuard) (t : GTask),
      try_enqueue mp mt g t =
        if ¬ t.is_final ∧ (mp ≤ lookupZ g.pending_by_socket t.socket_id ∨
            mt ≤ g.pending_total) then (g, false)
        else
          ({ pending_total := g.pending_total + 1,
             pending_by_socket := setA g.pending_by_socket t.socket_id
               (lookupZ g.pending_by_socket t.socket_id + 1) }, true)) ∧
    s3_g1.2 = true ∧ s3_g2.2 = true ∧ s3_g3.2 = false ∧ s3_g4.2 = true ∧
    lookupZ s3_g4.1.pending_by_socket "A".toList = 3 ∧
    s3_g4.1.pending_total = 3 :=
  ⟨try_enqueue_eq, by decide⟩

/-! ## Claim C4 -/

/-- C4, counterexample: admit one final task each for sockets `A` and `B`,
close `A` (its count is reclaimed), then let `A`'s Result reach the
`ws_send` loop.  Every `ws_send` branch calls `on_task_done`, so the
pending task of `A` is decremented a second time: `pending_total` drops to
0 while the per-socket counts still sum to 1 — the reconciliation equality
fails, the late delivery is not dropped. -/
theorem late_receipt_breaks_reconciliation :
    (ws_send_step (run_ops 2 10 ⟨0, []⟩ late_receipt_trace)
      "A".toList).pending_total = 0 ∧
    sumVals (ws_send_step (run_ops 2 10 ⟨0, []⟩ late_receipt_trace)
      "A".toList).pending_by_socket = 1 ∧
    (ws_send_step (run_ops 2 10 ⟨0, []⟩ late_receipt_trace)
      "A".toList).pending_total ≠
      sumVals (ws_send_step (run_ops 2 10 ⟨0, []⟩ late_receipt_trace)
        "A".toList).pending_by_socket := by
  decide

/-- C4 (amended): after any sequence of admissions, completion receipts and
socket closes starting from the empty guard, both `pending_total` and every
per-socket count are non-negative; and provided every completion receipt
arrives while its socket still has a positive pending count (no receipt for
a socket already reclaimed by the close path), `pending_total` equals the
sum over all sockets of `pending_by_socket`.  (The code does not drop a
late Result for a closed socket: it decrements again, breaking the
equality.) -/
theorem queue_counters_reconcile (mp mt : Int) (ops : List GuardOp) :
    (0 ≤ (run_ops mp mt ⟨0, []⟩ ops).pending_total ∧
      ∀ p ∈ (run_ops mp mt ⟨0, []⟩ ops).pending_by_socket, 0 ≤ p.2) ∧
    (valid_run mp mt ⟨0, []⟩ ops = true →
      (run_ops mp mt ⟨0, []⟩ ops).pending_total =
        sumVals (run_ops mp mt ⟨0, []⟩ ops).pending_by_socket) := by
  constructor
  · exact run_ops_nonneg mp mt ops ⟨0, []⟩ le_rfl (by simp)
  · intro hval
    exact (run_ops_wf mp mt ops ⟨0, []⟩ (by simp) (by simp)
      (by simp [sumVals]) hval).2.2

/-- Witness for C4 on a receipt-sound trace. -/
theorem queue_counters_reconcile_witness :
    valid_run 2 10 ⟨0, []⟩ sound_trace = true ∧
    (run_ops 2 10 ⟨0, []⟩ sound_trace).pending_total =
      sumVals (run_ops 2 10 ⟨0, []⟩ sound_trace).pending_by_socket :=
  ⟨by decide, (queue_counters_reconcile 2 10 sound_trace).2 (by decide)⟩

/-! ## Claim C6 -/

/-- C6, counterexample: in scenario S5 (release at 2.00 s, voice activity —
RMS above the 0.02 VAD threshold — until 2.40 s, `release_tail_ms = 350`,
`release_tail_max_ms = 1000`, `release_tail_silence_ms = 180`) the loop
polls every 20 ms from 2.35 s on, so the first poll at which the silence
window of 180 ms has elapsed is 2.59 s, not the 2.58 s the claim states. -/
theorem release_tail_scenario_cex :
    finish_emit_time true true 350 1000 180 (fun t => min t 2400) 2000 =
      2590 ∧ (2590 : Nat) ≠ 2580 := by
  constructor
  · decide
  · decide

/-- C6 (amended): with the release tail disabled or `release_tail_ms = 0`,
`finish` is emitted immediately at the release time; otherwise the task
waits at least `release_tail_ms` and then polls every 20 ms, finishing at
the first poll at which continuous silence reaches `release_tail_silence_ms`
or the elapsed time reaches `release_tail_max_ms`.  In scenario S5 (exact
20 ms sleeps) the finish fires at 2.59 s — the first poll at or after the
2.58 s instant at which the silence window elapses — strictly before the
3.00 s cap. -/
theorem release_tail_finish_rules :
    (∀ (adaptive : Bool) (tms tmax tsil : Nat) (lv : Nat → Nat) (r : Nat),
      finish_emit_time false adaptive tms tmax tsil lv r = r) ∧
    (∀ (adaptive : Bool) (tmax tsil : Nat) (lv : Nat → Nat) (r : Nat),
      finish_emit_time true adaptive 0 tmax tsil lv r = r) ∧
    finish_emit_time true true 350 1000 180 (fun t => min t 2400) 2000 =
      2590 ∧
    (2580 : Nat) ≤ 2590 ∧ (2590 : Nat) < 3000 := by
  refine ⟨?_, ?_, by decide, by decide, by decide⟩
  · intro adaptive tms tmax tsil lv r
    simp [finish_emit_time]
  · intro adaptive tmax tsil lv r
    simp [finish_emit_time]

/-! ## Segmentation lemmas -/

theorem seg_emit_take_flatten {α : Type} (d o : Nat) (hd : 0 < d) :
    ∀ (fuel : Nat) (x : List α), x.length ≤ fuel →
      ((seg_emit d o fuel x).map (List.take d)).flatten ++
        seg_rem d o fuel x = x := by
  intro fuel
  induction fuel with
  | zero => intro x _; simp [seg_emit, seg_rem]
  | succ n ih =>
    intro x hx
    by_cases h : d + 2 * o ≤ x.length
    · have hlen : (x.drop d).length ≤ n := by
        simp only [List.length_drop]; omega
      simp only [seg_emit, seg_rem, if_pos h, List.map_cons,
        List.flatten_cons, List.append_assoc]
      rw [ih _ hlen, List.take_take]
      have hmin : min d (d + o) = d := by omega
      rw [hmin, List.take_append_drop]
    · simp [seg_emit, seg_rem, if_neg h]

theorem seg_emit_length {α : Type} (d o : Nat) :
    ∀ (fuel : Nat) (x : List α) (s : List α),
      s ∈ seg_emit d o fuel x → s.length = d + o := by
  intro fuel
  induction fuel with
  | zero => intro x s hs; simp [seg_emit] at hs
  | succ n ih =>
    intro x s hs
    by_cases h : d + 2 * o ≤ x.length
    · simp only [seg_emit, if_pos h, List.mem_cons] at hs
      rcases hs with rfl | hs
      · simp only [List.length_take]; omega
      · exact ih _ s hs
    · simp [seg_emit, if_neg h] at hs

theorem seg_head_take {α : Type} (d o : Nat) :
    ∀ (fuel : Nat) (y : List α) (h : List α),
      (seg_emit d o fuel y ++ [seg_rem d o fuel y]).head? = some h →
      h.take o = y.take o := by
  intro fuel y h hh
  cases fuel with
  | zero =>
    simp [seg_emit, seg_rem] at hh
    simp [hh]
  | succ n =>
    by_cases hg : d + 2 * o ≤ y.length
    · simp only [seg_emit, seg_rem, if_pos hg, List.cons_append,
        List.head?_cons, Option.some.injEq] at hh
      rw [← hh, List.take_take]
      have : min o (d + o) = o := by omega
      rw [this]
    · simp only [seg_emit, seg_rem, if_neg hg, List.nil_append,
        List.head?_cons, Option.some.injEq] at hh
      simp [hh]

theorem seg_chain {α : Type} (d o : Nat) :
    ∀ (fuel : Nat) (x : List α),
      List.Chain' (fun a b => a.drop d = b.take o)
        (seg_emit d o fuel x ++ [seg_rem d o fuel x]) := by
  intro fuel
  induction fuel with
  | zero => intro x; simp [seg_emit, seg_rem]
  | succ n ih =>
    intro x
    by_cases h : d + 2 * o ≤ x.length
    · simp only [seg_emit, seg_rem, if_pos h, List.cons_append]
      rw [List.chain'_cons']
      refine ⟨?_, ih (x.drop d)⟩
      intro b hb
      have hb' := seg_head_take d o n (x.drop d) b (Option.mem_def.mp hb)
      show (x.take (d + o)).drop d = b.take o
      rw [List.drop_take]
      have : d + o - d = o := by omega
      rw [this, hb']
    · simp [seg_emit, seg_rem, if_neg h]

theorem seg_rem_length {α : Type} (d o : Nat) (hd : 0 < d) :
    ∀ (fuel : Nat) (x : List α), x.length ≤ fuel →
      (seg_rem d o fuel x).length < d + 2 * o := by
  intro fuel
  induction fuel with
  | zero =>
    intro x hx
    simp only [seg_rem]
    omega
  | succ n ih =>
    intro x hx
    by_cases h : d + 2 * o ≤ x.length
    · have hlen : (x.drop d).length ≤ n := by
        simp only [List.length_drop]; omega
      simpa [seg_rem, if_pos h] using ih _ hlen
    · simp only [seg_rem, if_neg h]
      omega

theorem seg_emit_nil_iff {α : Type} (d o : Nat) (hd : 0 < d) :
    ∀ (fuel : Nat) (x : List α), x.length ≤ fuel →
      (seg_emit d o fuel x = [] ↔ x.length < d + 2 * o) := by
  intro fuel x hx
  cases fuel with
  | zero =>
    simp only [seg_emit]
    constructor
    · intro _; omega
    · intro _; trivial
  | succ n =>
    by_cases h : d + 2 * o ≤ x.length
    · simp only [seg_emit, if_pos h]
      constructor
      · intro hc; exact absurd hc (by simp)
      · intro hc; omega
    · simp only [seg_emit, if_neg h]
      constructor
      · intro _; omega
      · intro _; trivial

/-! ## Claim C7 -/

/-- C7: the segmentation loop shared by §4.3 and the HTTP transcription path
emits a non-final segment of `d + o` samples exactly when the buffer holds
at least `d + 2·o` samples, advancing by `d`; the remainder is the single
final segment.  Taking the first `d` samples of every non-final segment and
appending the final remainder reconstructs the input (so the segments cover
every sample), and each adjacent pair of segments — final included —
overlaps in exactly `o` samples. -/
theorem segmentation_round_trip {α : Type} (d o : Nat) (x : List α)
    (hd : 0 < d) :
    ((segment_stream d o x).1.map (List.take d)).flatten ++
      (segment_stream d o x).2 = x ∧
    (∀ s ∈ (segment_stream d o x).1, s.length = d + o) ∧
    List.Chain' (fun a b => a.drop d = b.take o)
      ((segment_stream d o x).1 ++ [(segment_stream d o x).2]) ∧
    (segment_stream d o x).2.length < d + 2 * o ∧
    ((segment_stream d o x).1 = [] ↔ x.length < d + 2 * o) :=
  ⟨seg_emit_take_flatten d o hd x.length x le_rfl,
   fun s hs => seg_emit_length d o x.length x s hs,
   seg_chain d o x.length x,
   seg_rem_length d o hd x.length x le_rfl,
   seg_emit_nil_iff d o hd x.length x le_rfl⟩

/-- Witness for C7 at `d = 2`, `o = 1` on the input `0..8`. -/
theorem segmentation_round_trip_witness :
    0 < 2 ∧
    ((segment_stream 2 1 (List.range 9)).1.map (List.take 2)).flatten ++
      (segment_stream 2 1 (List.range 9)).2 = List.range 9 :=
  ⟨by decide, (segmentation_round_trip 2 1 (List.range 9) (by decide)).1⟩

/-! ## Claim C8 -/

/-- C8: the `ServerConfig` class of `src/config_server.py` does *not* define
`secret`, `queue_max_total`, `queue_max_per_client`, nor any of the
`http_*` family, although `queue_guard.py` and `server_http.py` read those
attributes without a default — those reads raise `AttributeError`. -/
theorem server_config_missing_keys :
    ("secret" ∉ server_config_attrs) ∧
    ("queue_max_total" ∉ server_config_attrs) ∧
    ("queue_max_per_client" ∉ server_config_attrs) ∧
    ("http_enable" ∉ server_config_attrs) ∧
    ("http_addr" ∉ server_config_attrs) ∧
    ("http_port" ∉ server_config_attrs) ∧
    ("http_seg_duration" ∉ server_config_attrs) ∧
    ("http_seg_overlap" ∉ server_config_attrs) ∧
    ("http_timeout_secs" ∉ server_config_attrs) ∧
    ("http_max_upload_mb" ∉ server_config_attrs) ∧
    ("queue_max_per_client" ∈ queue_guard_config_reads) ∧
    ("queue_max_total" ∈ queue_guard_config_reads) ∧
    ("http_enable" ∈ http_config_reads) := by
  decide

/-! ## Claim C9 -/

/-- C9, counterexample: the claimed "attempted iff the text begins with one
of `请翻译为`, `请翻译`, `Please translate to`, `Please translate `" fails
in both directions.  `请翻译` alone begins with a claimed trigger yet no
translation is attempted (empty content); `please translated` does not
begin with any of the four claimed forms (the English ones requiring
` to` or a trailing space) yet the code attempts a translation, because its
prefix check uses `please translate` without a trailing space. -/
theorem translate_trigger_cex :
    ("请翻译".toList <+: pyStrip "请翻译".toList) ∧
    translate_attempted true "请翻译".toList = false ∧
    translate_attempted true "please translated".toList = true ∧
    ¬ ("please translate to".toList <+:
        lowerStr (pyStrip "please translated".toList)) ∧
    ¬ ("please translate ".toList <+:
        lowerStr (pyStrip "please translated".toList)) ∧
    ¬ ("请翻译".toList <+: pyStrip "please translated".toList) := by
  decide

/-- C9 (amended): a translation command parses exactly when the stripped
text begins with `请翻译为`, `请翻译`, or — case-insensitively, with no
trailing-space or word-boundary requirement — `please translate to` or
`please translate`; the backend is invoked exactly when, in addition,
translation is enabled and the parsed content is non-empty.  The remainder
is parsed through the CN/EN alias tables and the ISO-code pattern,
defaulting to `en` when none recognises a language; and when the backend
fails the function yields no replacement, so the original text passes
through. -/
theorem translate_prefix_rules :
    (∀ text : Str, (parse_translate_command text).isSome = true ↔
      ("请翻译为".toList <+: pyStrip text ∨
       "请翻译".toList <+: pyStrip text ∨
       "please translate to".toList <+: lowerStr (pyStrip text) ∨
       "please translate".toList <+: lowerStr (pyStrip text))) ∧
    (∀ (e : Bool) (text : Str) (c : TranslateCommand),
      parse_translate_command text = some c →
      (translate_attempted e text = true ↔ e = true ∧ c.content ≠ [])) ∧
    (∀ (e : Bool) (text : Str), parse_translate_command text = none →
      translate_attempted e text = false) ∧
    (∀ rest : Str,
      try_candidate (trim_leading_separators rest) = none →
      try_candidate (strip_brackets_front (trim_leading_separators rest)) =
        none →
      (parse_target_and_content rest).1 = "en".toList) ∧
    (∀ (e : Bool) (text : Str),
      maybe_translate_prefixed_text e (fun _ _ => none) text = none) := by
  refine ⟨?_, ?_, ?_, ?_, ?_⟩
  · intro text
    simp only [parse_translate_command]
    split_ifs with h0 h1 h2 h3 h4 <;> simp_all [lowerStr]
  · intro e text c hc
    simp [translate_attempted, hc, Bool.and_eq_true]
  · intro e text hc
    simp [translate_attempted, hc]
  · intro rest h1 h2
    simp only [parse_target_and_content]
    by_cases h0 : trim_leading_separators rest = []
    · simp [h0]
    · simp [h0, h1, h2, Option.orElse]
  · intro e text
    by_cases he : e
    · cases hparse : parse_translate_command text with
      | none => simp [maybe_translate_prefixed_text, he, hparse]
      | some c =>
        simp only [maybe_translate_prefixed_text, he, hparse]
        split_ifs <;> simp
    · simp [maybe_translate_prefixed_text, he]

/-- Witness for C9: `请翻译为英文 你好` parses to target `en` with content
`你好`, and translation is attempted exactly when enabled. -/
theorem translate_prefix_rules_witness :
    translate_attempted true "请翻译为英文 你好".toList = true ↔
      (true = true ∧ "你好".toList ≠ []) :=
  translate_prefix_rules.2.1 true "请翻译为英文 你好".toList
    ⟨"en".toList, "你好".toList, "请翻译为".toList⟩ (by decide)

/-! ## Trailing punctuation lemmas -/

theorem strip_punc_rev_ne_nil (trash : Str) :
    ∀ r : Str, r ≠ [] → strip_punc_rev trash r ≠ [] := by
  intro r hr
  match r with
  | [] => exact absurd rfl hr
  | [c] => simp [strip_punc_rev]
  | c :: d :: rest =>
    simp only [strip_punc_rev]
    rcases rest with _ | ⟨e, rest2⟩ <;> split_ifs <;>
      (try simp) <;> (try split_ifs) <;> (try simp)

theorem strip_punc_rev_len (trash : Str) (hnl : '\n' ∉ trash) :
    ∀ r : Str, strip_punc_rev trash r = r ∨
      (strip_punc_rev trash r).length + 1 = r.length := by
  intro r
  match r with
  | [] => left; rfl
  | [c] => left; rfl
  | c :: d :: rest =>
    simp only [strip_punc_rev]
    by_cases hcn : c = '\n'
    · subst hcn
      rcases rest with _ | ⟨e, rest2⟩
      · simp [hnl]
      · by_cases h1 : d ∈ trash ∧ e ≠ '\n' <;> simp [hnl, h1]
    · by_cases h1 : c ∈ trash ∧ d ≠ '\n' <;> simp [hcn, h1]

/-! ## Claim C10 -/

/-- C10, counterexample: with the default `trash_punc = "，。,."`, the text
`"hi,\n"` — whose last character `'\n'` is not in `trash_punc` — is *not*
returned unchanged: Python's `$` also matches just before a trailing
newline, so the `','` before it is removed.  Conversely `"\n,"` ends in a
`trash_punc` character but is returned unchanged, because the lookbehind
`(?<=.)` does not match the preceding newline. -/
theorem strip_punc_newline_cex :
    strip_punc "，。,.".toList "hi,\n".toList = "hi\n".toList ∧
    strip_punc "，。,.".toList "hi,\n".toList ≠ "hi,\n".toList ∧
    ¬ ('\n' ∈ "，。,.".toList) ∧
    (',' ∈ "，。,.".toList) ∧
    strip_punc "，。,.".toList "\n,".toList = "\n,".toList := by
  decide

/-- C10 (amended): for a `trash_punc` free of regex metacharacters and not
containing `'\n'`, `strip_punc` removes exactly one character — the last
character, or the character just before a single trailing newline — when
that character is in `trash_punc` and is immediately preceded by a
non-newline character; otherwise (empty or single-character text, empty
`trash_punc`, candidate character not in `trash_punc`, or preceding
character a newline) the text is unchanged.  It never maps a non-empty
text to the empty string and removes at most one character. -/
theorem strip_punc_rules :
    (∀ (trash s : Str) (a c : Char), trash ≠ [] → c ∈ trash → c ≠ '\n' →
      a ≠ '\n' → strip_punc trash (s ++ [a, c]) = s ++ [a]) ∧
    (∀ (trash s : Str) (a c : Char), '\n' ∉ trash → trash ≠ [] →
      c ∈ trash → c ≠ '\n' → a ≠ '\n' →
      strip_punc trash (s ++ [a, c, '\n']) = s ++ [a, '\n']) ∧
    (∀ (trash s : Str) (c : Char), c ∉ trash → c ≠ '\n' →
      strip_punc trash (s ++ [c]) = s ++ [c]) ∧
    (∀ (trash t : Str), t ≠ [] → strip_punc trash t ≠ []) ∧
    (∀ (trash t : Str), t.length ≤ 1 → strip_punc trash t = t) ∧
    (∀ (trash t : Str), '\n' ∉ trash →
      strip_punc trash t = t ∨
        (strip_punc trash t).length + 1 = t.length) := by
  refine ⟨?_, ?_, ?_, ?_, ?_, ?_⟩
  · intro trash s a c htr hc hcn han
    simp only [strip_punc]
    rw [if_neg (by simp [htr])]
    have hrev : (s ++ [a, c]).reverse = c :: a :: s.reverse := by simp
    rw [hrev]
    simp [strip_punc_rev, hcn, hc, han]
  · intro trash s a c hnl htr hc hcn han
    simp only [strip_punc]
    rw [if_neg (by simp [htr])]
    have hrev : (s ++ [a, c, '\n']).reverse = '\n' :: c :: a :: s.reverse := by
      simp
    rw [hrev]
    simp [strip_punc_rev, hnl, hc, han]
  · intro trash s c hc hcn
    by_cases htr : trash = []
    · simp [strip_punc, htr]
    · simp only [strip_punc]
      rw [if_neg (by simp [htr])]
      rcases hs : s.reverse with _ | ⟨d, rest⟩
      · have hsnil : s = [] := by simpa using congrArg List.reverse hs
        subst hsnil
        simp [strip_punc_rev]
      · have hrev : (s ++ [c]).reverse = c :: d :: rest := by simp [hs]
        rw [hrev]
        have : strip_punc_rev trash (c :: d :: rest) = c :: d :: rest := by
          simp [strip_punc_rev, hcn, hc]
        rw [this, ← hrev, List.reverse_reverse]
  · intro trash t ht
    by_cases htr : trash = []
    · simp [strip_punc, htr, ht]
    · simp only [strip_punc]
      rw [if_neg (by simp [ht, htr])]
      have : strip_punc_rev trash t.reverse ≠ [] :=
        strip_punc_rev_ne_nil trash t.reverse (by simpa using ht)
      simpa using this
  · intro trash t hlen
    rcases t with _ | ⟨c, _ | ⟨d, rest⟩⟩
    · simp [strip_punc]
    · by_cases htr : trash = [] <;> simp [strip_punc, htr, strip_punc_rev]
    · simp at hlen
  · intro trash t hnl
    by_cases htr : trash = []
    · left; simp [strip_punc, htr]
    · by_cases ht : t = []
      · left; simp [strip_punc, ht]
      · simp only [strip_punc]
        rw [if_neg (by simp [ht, htr])]
        rcases strip_punc_rev_len trash hnl t.reverse with h | h
        · left; rw [h, List.reverse_reverse]
        · right
          simpa using h

/-- Witness for C10: the default `trash_punc` strips one trailing `，`. -/
theorem strip_punc_rules_witness :
    strip_punc "，。,.".toList ("hell".toList ++ ['o', '，']) =
      "hell".toList ++ ['o'] :=
  strip_punc_rules.1 "，。,.".toList "hell".toList 'o' '，'
    (by decide) (by decide) (by decide) (by decide)

end CapsWriter
